import Mathlib

/-!
Shallow embedding of the vault-env secrets manager
(repository razzkumar/vault-env), covering:

* the field-map data model (`map[string]interface{}` stored at a KV path),
* the record-shape classifier predicates from `internal/utils`
  (`IsEncryptedSingleValue`, `IsPlaintextSingleValue`, `IsEncryptedMultiValue`),
* the merge primitive `MergeData`,
* the bulk loaders `LoadEnvFile` and `LoadFileAsBase64`,
* the `Put` operation of `internal/app/app.go`,
* the config-driven aggregator `GenerateEnvFile` of `internal/app/app.go`.

Go maps are modelled as association lists with pairwise-distinct keys
(a Go map cannot hold a duplicate key); external effects (the Vault
backend's transit encrypt/decrypt oracle, KV fetch) are modelled as
explicit function parameters returning `Option`, and fallible operations
return a `Res` value.  Iteration order over a Go map is arbitrary; every
modelled operation is order-insensitive in its result (last-writer-wins
per key), so a fixed list order is a faithful representative.
-/

namespace VaultEnv

/-- A Go `interface{}` value as it appears in a secret record: either a
string or some non-string JSON value (number, bool, nested map, ...),
which the code's `.(string)` type assertions reject. -/
inductive GoValue where
  | str (s : String)
  | other (n : Nat)
deriving DecidableEq, Repr

/-- A secret record: the model of Go's `map[string]interface{}`.
Entries are an association list; well-formed maps have distinct keys. -/
abbrev FieldMap := List (String × GoValue)

/-- Lookup of a key in a field map (first match). -/
def getVal : FieldMap → String → Option GoValue
  | [], _ => none
  | (k, v) :: rest, key => if k = key then some v else getVal rest key

/-- Key membership, the `_, ok := data[k]` idiom. -/
def hasKey (m : FieldMap) (k : String) : Bool :=
  (getVal m k).isSome

/-- The keys of a field map. -/
def keys (m : FieldMap) : List String :=
  m.map Prod.fst

/-- Well-formedness of the model: a Go map has pairwise-distinct keys. -/
def WFMap (m : FieldMap) : Prop :=
  (keys m).Nodup

instance (m : FieldMap) : Decidable (WFMap m) := by
  unfold WFMap; infer_instance

/-- Remove a key from a field map. -/
def eraseKey (m : FieldMap) (k : String) : FieldMap :=
  m.filter (fun p => !(p.1 == k))

/-- Go's `m[k] = v`: bind `k` to `v`, replacing any previous binding. -/
def setKey (m : FieldMap) (k : String) (v : GoValue) : FieldMap :=
  eraseKey m k ++ [(k, v)]

/-- `p.data.isPrefixOf s.data` unfolded: `pfxAux pat cs` is true iff the
char list `pat` is an initial segment of `cs`. -/
def pfxAux : List Char → List Char → Bool
  | [], _ => true
  | _ :: _, [] => false
  | a :: as, b :: bs => a == b && pfxAux as bs

/-- Go `strings.HasPrefix s pat`. -/
def strHasPfx (s pat : String) : Bool :=
  pfxAux pat.data s.data

/-- The ciphertext marker produced by Vault transit encryption. -/
def vaultPfx : String := "vault:v"

/-- `data[k].(string)`: the string type assertion. -/
def asString : Option GoValue → Option String
  | some (.str s) => some s
  | _ => none

/-- `internal/utils.IsEncryptedSingleValue`: exactly one field, and the
`"ciphertext"` field is a string with the `vault:v` prefix. -/
def IsEncryptedSingleValue (data : FieldMap) : Bool :=
  if data.length != 1 then false
  else
    match asString (getVal data "ciphertext") with
    | some c => strHasPfx c vaultPfx
    | none => false

/-- `internal/utils.IsPlaintextSingleValue`: exactly one field, keyed
`"value"` (presence only; any value type). -/
def IsPlaintextSingleValue (data : FieldMap) : Bool :=
  if data.length != 1 then false
  else hasKey data "value"

/-- `internal/utils.IsEncryptedMultiValue`: non-empty, and some field
value is a string with the `vault:v` prefix. -/
def IsEncryptedMultiValue (data : FieldMap) : Bool :=
  if data.length == 0 then false
  else
    data.any (fun p =>
      match p.2 with
      | .str s => strHasPfx s vaultPfx
      | .other _ => false)

/-- The four record shapes of the specification. -/
inductive Shape where
  | singleEncrypted
  | singlePlaintext
  | multiEncrypted
  | otherwise
deriving DecidableEq, Repr

/-- The classification as callers consume it: the predicates tested in
priority order (single-encrypted, then single-plaintext, then
multi-encrypted, else the plain multi-value/empty case). -/
def classify (data : FieldMap) : Shape :=
  if IsEncryptedSingleValue data then .singleEncrypted
  else if IsPlaintextSingleValue data then .singlePlaintext
  else if IsEncryptedMultiValue data then .multiEncrypted
  else .otherwise

/-- `internal/utils.MergeData`: allocate a fresh map, copy `exd` into it,
then copy `nw` into it (later writes win). -/
def mergeData (exd nw : FieldMap) : FieldMap :=
  let result := exd.foldl (fun acc p => setKey acc p.1 p.2) []
  nw.foldl (fun acc p => setKey acc p.1 p.2) result

/-- Proof helper: the value of the LAST binding of `key` in the entry
list (Go map writes are last-writer-wins per key). -/
def lastVal : FieldMap → String → Option GoValue
  | [], _ => none
  | (k0, v0) :: rest, key =>
    match lastVal rest key with
    | some v => some v
    | none => if k0 = key then some v0 else none

/-- A Go `(T, error)` return: either a value or an error message. -/
inductive Res (α : Type) where
  | ok (a : α)
  | err (msg : String)
deriving DecidableEq, Repr

/-- The transit encrypt oracle `vaultClient.TransitEncrypt` (mount and
key name fixed for the invocation): plaintext to ciphertext, or a
transport/backend failure (`none`). -/
abbrev Oracle := String → Option String

/-- `internal/utils.LoadEnvFile`, after `godotenv.Read` has produced the
parsed key/value map: build a field map, transit-encrypting each value
when encryption is in use; the first oracle failure aborts the load. -/
def loadEnvFileAux (oracle : Oracle) (useEncryption : Bool) :
    List (String × String) → FieldMap → Res FieldMap
  | [], data => .ok data
  | (key, value) :: rest, data =>
    if useEncryption then
      match oracle value with
      | none => .err ("encrypt " ++ key)
      | some ciphertext => loadEnvFileAux oracle useEncryption rest (setKey data key (.str ciphertext))
    else
      loadEnvFileAux oracle useEncryption rest (setKey data key (.str value))

/-- `internal/utils.LoadEnvFile` on a successfully parsed env map. -/
def loadEnvFile (oracle : Oracle) (useEncryption : Bool)
    (envMap : List (String × String)) : Res FieldMap :=
  loadEnvFileAux oracle useEncryption envMap []

/-- The standard base64 alphabet. -/
def b64Alphabet : String :=
  "ABCDEFGHIJKLMNOPQRSTUVWXYZabcdefghijklmnopqrstuvwxyz0123456789+/"

/-- The base64 digit for a 6-bit group. -/
def b64Char (n : Nat) : Char :=
  b64Alphabet.data.getD n 'A'

/-- Base64 encoding of a byte list, three bytes at a time, `=`-padded
(`encoding/base64.StdEncoding.EncodeToString`). -/
def b64Chunks : List Nat → List Char
  | [] => []
  | [b1] =>
    [b64Char (b1 / 4), b64Char (b1 % 4 * 16), '=', '=']
  | [b1, b2] =>
    [b64Char (b1 / 4), b64Char (b1 % 4 * 16 + b2 / 16), b64Char (b2 % 16 * 4), '=']
  | b1 :: b2 :: b3 :: rest =>
    b64Char (b1 / 4) :: b64Char (b1 % 4 * 16 + b2 / 16) ::
      b64Char (b2 % 16 * 4 + b3 / 64) :: b64Char (b3 % 64) :: b64Chunks rest

/-- Base64 encoding of a file's bytes as a string. -/
def base64Encode (bytes : List Nat) : String :=
  String.mk (b64Chunks bytes)

/-- `internal/utils.LoadFileAsBase64`, after `os.ReadFile` has produced
the file's bytes: base64-encode the whole content and produce a
sentinel-keyed singleton, `{"ciphertext": c}` under encryption (failing
if the oracle fails) and `{"value": b64}` otherwise. -/
def loadFileAsBase64 (oracle : Oracle) (useEncryption : Bool)
    (bytes : List Nat) : Res FieldMap :=
  let base64Content := base64Encode bytes
  if useEncryption then
    match oracle base64Content with
    | none => .err "encrypt file content"
    | some ciphertext => .ok [("ciphertext", .str ciphertext)]
  else
    .ok [("value", .str base64Content)]

/-- The data source of a `Put`, after input acquisition: a parsed env
file (`--from-env`), a read raw file (`--from-file`), or a single value
from `--value`/stdin. -/
inductive PutInput where
  | fromEnv (envMap : List (String × String))
  | fromFile (bytes : List Nat)
  | single (value : String)
deriving DecidableEq, Repr

/-- `internal/app.App.Put`, from the point where the existing record has
been fetched (`existingData`; a missing secret is the empty map) up to
the record handed to `KVPut`.  `key` is `opts.Key` (empty means no
target field); `useEncryption` is whether an encryption key was
resolved.  Returns the record written, or the error that aborted the
operation before any write. -/
def put (oracle : Oracle) (useEncryption : Bool) (key : String)
    (input : PutInput) (existingData : FieldMap) : Res FieldMap :=
  let finalData :=
    if IsEncryptedSingleValue existingData || IsPlaintextSingleValue existingData then
      ([] : FieldMap)
    else
      mergeData [] existingData
  match input with
  | .fromEnv envMap =>
    match loadEnvFile oracle useEncryption envMap with
    | .err e => .err ("load env file: " ++ e)
    | .ok newData => .ok (mergeData finalData newData)
  | .fromFile bytes =>
    match loadFileAsBase64 oracle useEncryption bytes with
    | .err e => .err ("load file: " ++ e)
    | .ok newData => .ok newData
  | .single value =>
    if value.length == 0 then .err "no secret value provided"
    else if key != "" then
      if useEncryption then
        match oracle value with
        | none => .err "transit encrypt"
        | some ciphertext => .ok (setKey finalData key (.str ciphertext))
      else
        .ok (setKey finalData key (.str value))
    else
      if useEncryption then
        match oracle value with
        | none => .err "transit encrypt"
        | some ciphertext => .ok [("ciphertext", .str ciphertext)]
      else
        .ok [("value", .str value)]

/-- The sequence of backend writes a `Put` performs: `KVPut` is reached
exactly when no earlier step errored, and writes the final record. -/
def putWrites (oracle : Oracle) (useEncryption : Bool) (key : String)
    (input : PutInput) (existingData : FieldMap) : List FieldMap :=
  match put oracle useEncryption key input existingData with
  | .ok d => [d]
  | .err _ => []

/-- The encrypt-oracle calls a `Put` makes under encryption are
determined by its input: one call per env-map entry for a bulk load
(aborting at the first failure — so the load fails exactly when some
entry's value fails), one call on the base64 content for a raw file,
and one call on the value for a single-value set.  This predicate says
that at least one of those calls fails. -/
def encryptCallFails (oracle : Oracle) : PutInput → Prop
  | .fromEnv envMap => ∃ p ∈ envMap, oracle p.2 = none
  | .fromFile bytes => oracle (base64Encode bytes) = none
  | .single value => oracle value = none

/-- A config-declared secret entry (`config.SecretEntry` as consumed by
`GenerateEnvFile`): name, KV path, target env var, required flag. -/
structure Secret where
  name : String
  kvPath : String
  envVar : String
  required : Bool
deriving DecidableEq, Repr

/-- The KV fetch `vaultClient.KVGet` with the mount fixed: path to
record, or a fetch failure (`none`). -/
abbrev Fetch := String → Option FieldMap

/-- The transit decrypt oracle with mount and key fixed: ciphertext to
plaintext, or failure. -/
abbrev Decryptor := String → Option String

/-- What processing one entry of `GenerateEnvFile`'s loop does: skip it
(`continue`), emit one env line, or abort the whole generation. -/
inductive EntryOutcome where
  | skip
  | line (l : String)
  | fail (msg : String)
deriving DecidableEq, Repr

/-- The `else if` chain of `GenerateEnvFile` after the
encrypted-singleton test failed: the `"value"` sentinel, the
multi-value case, and the no-valid-data case, the latter two fatal
exactly when the entry is required. -/
def resolveEntryPlain (data : FieldMap) (s : Secret) : EntryOutcome :=
  match asString (getVal data "value") with
  | some value => .line (s.envVar ++ "=" ++ value)
  | none =>
    if data.length > 1 then
      if s.required then .fail ("secret " ++ s.name ++ " contains multiple values")
      else .skip
    else
      if s.required then .fail ("no valid data found for required secret " ++ s.name)
      else .skip

/-- One iteration of the loop in `internal/app.App.GenerateEnvFile`:
validate the entry, fetch its record, then resolve a single value via
the `"ciphertext"` sentinel (decrypting), the `"value"` sentinel, or
report the multi-value / no-valid-data cases, each fatal exactly when
the entry is required.  `encKey` is the resolved decryption key name
(empty when none is available). -/
def resolveEntry (fetch : Fetch) (dec : Decryptor) (encKey : String)
    (s : Secret) : EntryOutcome :=
  if s.envVar == "" || s.kvPath == "" then .skip
  else
    match fetch s.kvPath with
    | none =>
      if s.required then .fail ("failed to get required secret " ++ s.name)
      else .skip
    | some data =>
      match asString (getVal data "ciphertext") with
      | some ciphertext =>
        if strHasPfx ciphertext vaultPfx then
          if encKey == "" then
            if s.required then .fail ("encryption key required for encrypted secret " ++ s.name)
            else .skip
          else
            match dec ciphertext with
            | none =>
              if s.required then .fail ("failed to decrypt required secret " ++ s.name)
              else .skip
            | some plaintext => .line (s.envVar ++ "=" ++ plaintext)
        else
          resolveEntryPlain data s
      | none => resolveEntryPlain data s

/-- The entry loop of `GenerateEnvFile`: accumulate env lines in
declaration order; a fatal entry aborts the whole run. -/
def genLines (fetch : Fetch) (dec : Decryptor) (encKey : String) :
    List Secret → Res (List String)
  | [] => .ok []
  | s :: rest =>
    match resolveEntry fetch dec encKey s with
    | .fail m => .err m
    | .skip => genLines fetch dec encKey rest
    | .line l =>
      match genLines fetch dec encKey rest with
      | .ok ls => .ok (l :: ls)
      | .err m => .err m

/-- The output file `GenerateEnvFile` writes: `none` when generation
failed (the write is never reached), otherwise the joined lines with a
final newline when non-empty. -/
def envFileContent (fetch : Fetch) (dec : Decryptor) (encKey : String)
    (secrets : List Secret) : Option String :=
  match genLines fetch dec encKey secrets with
  | .err _ => none
  | .ok envLines =>
    some (String.intercalate "\n" envLines ++ if envLines.length > 0 then "\n" else "")

/-! ### Basic lemmas about the field-map model -/

theorem getVal_append (a b : FieldMap) (k : String) :
    getVal (a ++ b) k =
      match getVal a k with
      | some v => some v
      | none => getVal b k := by
  induction a with
  | nil => simp [getVal]
  | cons p rest ih =>
    obtain ⟨k0, v0⟩ := p
    by_cases h : k0 = k <;> simp [getVal, h, ih]

theorem getVal_eraseKey : ∀ (m : FieldMap) (k key : String),
    getVal (eraseKey m k) key = if key = k then none else getVal m key
  | [], k, key => by simp [eraseKey, getVal]
  | (k0, v0) :: rest, k, key => by
    have ih := getVal_eraseKey rest k key
    by_cases h0 : k0 = k
    · rw [show eraseKey ((k0, v0) :: rest) k = eraseKey rest k from by
        simp [eraseKey, h0]]
      rw [ih]
      by_cases hk : key = k
      · simp [hk]
      · have hk0 : ¬ k0 = key := fun hh => hk (by rw [← hh, h0])
        simp [hk, getVal, hk0]
    · rw [show eraseKey ((k0, v0) :: rest) k = (k0, v0) :: eraseKey rest k from by
        simp [eraseKey, h0]]
      by_cases h1 : k0 = key
      · have hk : ¬ key = k := fun hh => h0 (h1.trans hh)
        simp [getVal, h1, hk]
      · simp [getVal, h1, ih]

theorem getVal_setKey (m : FieldMap) (k key : String) (v : GoValue) :
    getVal (setKey m k v) key = if key = k then some v else getVal m key := by
  unfold setKey
  rw [getVal_append, getVal_eraseKey]
  by_cases h : key = k
  · simp [h, getVal]
  · rw [if_neg h, if_neg h]
    cases hg : getVal m key with
    | none =>
      show (if k = key then some v else getVal ([] : FieldMap) key) = none
      rw [if_neg fun hh => h hh.symm]
      rfl
    | some a => rfl

theorem getVal_eq_none_iff : ∀ (m : FieldMap) (k : String),
    getVal m k = none ↔ k ∉ keys m
  | [], k => by simp [getVal, keys]
  | (k0, v0) :: rest, k => by
    have ih := getVal_eq_none_iff rest k
    by_cases h : k0 = k
    · simp [getVal, keys, h]
    · simp [getVal, keys, h, ih, Ne.symm h]

theorem keys_cons (k0 : String) (v0 : GoValue) (rest : FieldMap) :
    keys ((k0, v0) :: rest) = k0 :: keys rest := rfl

theorem lastVal_eq_none_iff : ∀ (m : FieldMap) (k : String),
    lastVal m k = none ↔ k ∉ keys m
  | [], k => by simp [lastVal, keys]
  | (k0, v0) :: rest, k => by
    have ih := lastVal_eq_none_iff rest k
    cases hrest : lastVal rest k with
    | some v =>
      have hk : k ∈ keys rest := by
        by_contra hc
        have hnone := ih.mpr hc
        rw [hrest] at hnone
        exact Option.noConfusion hnone
      simp [lastVal, hrest, keys_cons, hk]
    | none =>
      have hk : k ∉ keys rest := ih.mp hrest
      by_cases h : k0 = k
      · simp [lastVal, hrest, keys_cons, h]
      · simp [lastVal, hrest, keys_cons, h, Ne.symm h, hk]

theorem lastVal_eq_getVal : ∀ (m : FieldMap), WFMap m → ∀ (k : String),
    lastVal m k = getVal m k
  | [], _, k => rfl
  | (k0, v0) :: rest, h, k => by
    have h' : (k0 :: keys rest).Nodup := h
    have hmem : k0 ∉ keys rest := (List.nodup_cons.mp h').1
    have hw : WFMap rest := (List.nodup_cons.mp h').2
    by_cases hk : k0 = k
    · subst hk
      have hnone : lastVal rest k0 = none := (lastVal_eq_none_iff rest k0).mpr hmem
      simp [lastVal, getVal, hnone]
    · have ih := lastVal_eq_getVal rest hw k
      rw [show lastVal ((k0, v0) :: rest) k =
          match lastVal rest k with
          | some v => some v
          | none => if k0 = k then some v0 else none from rfl]
      rw [ih]
      cases hg : getVal rest k with
      | some a => simp [getVal, hk, hg]
      | none => simp [getVal, hk, hg]

theorem foldl_setKey_none : ∀ (l acc : FieldMap) (key : String),
    lastVal l key = none →
    getVal (l.foldl (fun acc p => setKey acc p.1 p.2) acc) key = getVal acc key
  | [], acc, key, _ => rfl
  | (k0, v0) :: rest, acc, key, h => by
    rw [List.foldl_cons]
    have hsplit : lastVal rest key = none ∧ ¬ k0 = key := by
      cases hrest : lastVal rest key with
      | some w => simp [lastVal, hrest] at h
      | none =>
        refine ⟨rfl, ?_⟩
        intro hk
        simp [lastVal, hrest, hk] at h
    rw [foldl_setKey_none rest (setKey acc k0 v0) key hsplit.1,
      getVal_setKey, if_neg fun hh => hsplit.2 hh.symm]

theorem foldl_setKey_some : ∀ (l acc : FieldMap) (key : String) (v : GoValue),
    lastVal l key = some v →
    getVal (l.foldl (fun acc p => setKey acc p.1 p.2) acc) key = some v
  | [], acc, key, v, h => by simp [lastVal] at h
  | (k0, v0) :: rest, acc, key, v, h => by
    rw [List.foldl_cons]
    cases hrest : lastVal rest key with
    | some w =>
      have hw : w = v := by
        simp [lastVal, hrest] at h
        exact h
      exact hw ▸ foldl_setKey_some rest (setKey acc k0 v0) key w hrest
    | none =>
      have hk : k0 = key ∧ v0 = v := by
        simp [lastVal, hrest] at h
        by_cases hk0 : k0 = key
        · simp [hk0] at h
          exact ⟨hk0, h⟩
        · simp [hk0] at h
      rw [foldl_setKey_none rest (setKey acc k0 v0) key hrest,
        getVal_setKey, if_pos hk.1.symm, hk.2]

theorem getVal_mergeData (A B : FieldMap) (hA : WFMap A) (hB : WFMap B)
    (k : String) :
    getVal (mergeData A B) k =
      match getVal B k with
      | some v => some v
      | none => getVal A k := by
  show getVal (B.foldl (fun acc p => setKey acc p.1 p.2)
    (A.foldl (fun acc p => setKey acc p.1 p.2) [])) k = _
  cases hBk : getVal B k with
  | some v =>
    rw [foldl_setKey_some B _ k v (by rw [lastVal_eq_getVal B hB, hBk])]
  | none =>
    rw [foldl_setKey_none B _ k (by rw [lastVal_eq_getVal B hB, hBk])]
    cases hAk : getVal A k with
    | some v =>
      rw [foldl_setKey_some A _ k v (by rw [lastVal_eq_getVal A hA, hAk])]
    | none =>
      rw [foldl_setKey_none A _ k (by rw [lastVal_eq_getVal A hA, hAk])]
      rfl

theorem eraseKey_of_not_mem (m : FieldMap) (k : String) (h : k ∉ keys m) :
    eraseKey m k = m := by
  induction m with
  | nil => rfl
  | cons p rest ih =>
    obtain ⟨k0, v0⟩ := p
    have h0 : ¬ k0 = k := by
      intro hk
      exact h (by simp [keys_cons, hk])
    have hrest : k ∉ keys rest := fun hk => h (by simp [keys_cons, hk])
    simp [eraseKey, h0] at ih ⊢
    exact ih hrest

theorem foldl_setKey_append : ∀ (l acc : FieldMap), (keys l).Nodup →
    (∀ x ∈ keys l, x ∉ keys acc) →
    l.foldl (fun acc p => setKey acc p.1 p.2) acc = acc ++ l
  | [], acc, _, _ => by simp
  | (k0, v0) :: rest, acc, hnd, hdisj => by
    have h' : (k0 :: keys rest).Nodup := hnd
    have hk0 : k0 ∉ keys acc := hdisj k0 (by simp [keys_cons])
    have hstep : setKey acc k0 v0 = acc ++ [(k0, v0)] := by
      unfold setKey
      rw [eraseKey_of_not_mem acc k0 hk0]
    have hkeys : keys (acc ++ [(k0, v0)]) = keys acc ++ [k0] := by
      simp [keys]
    have hdisj' : ∀ x ∈ keys rest, x ∉ keys (acc ++ [(k0, v0)]) := by
      intro x hx
      rw [hkeys]
      intro hmem
      rcases List.mem_append.mp hmem with hmem | hmem
      · exact hdisj x (by simp [keys_cons, hx]) hmem
      · have : x = k0 := by simpa using hmem
        exact (List.nodup_cons.mp h').1 (this ▸ hx)
    rw [List.foldl_cons, hstep,
      foldl_setKey_append rest (acc ++ [(k0, v0)]) (List.nodup_cons.mp h').2 hdisj']
    simp

theorem mergeData_empty_left (A : FieldMap) (hA : WFMap A) :
    mergeData [] A = A := by
  show A.foldl (fun acc p => setKey acc p.1 p.2)
    (([] : FieldMap).foldl (fun acc p => setKey acc p.1 p.2) []) = A
  rw [List.foldl_nil, foldl_setKey_append A [] hA (by simp [keys])]
  rfl

theorem mergeData_empty_right (A : FieldMap) (hA : WFMap A) :
    mergeData A [] = A := by
  show ([] : FieldMap).foldl (fun acc p => setKey acc p.1 p.2)
    (A.foldl (fun acc p => setKey acc p.1 p.2) []) = A
  rw [List.foldl_nil, foldl_setKey_append A [] hA (by simp [keys])]
  rfl

theorem WFMap_setKey (m : FieldMap) (k : String) (v : GoValue) (h : WFMap m) :
    WFMap (setKey m k v) := by
  have hsub : List.Sublist (keys (eraseKey m k)) (keys m) :=
    (List.filter_sublist m).map Prod.fst
  have h1 : (keys (eraseKey m k)).Nodup := h.sublist hsub
  have h2 : k ∉ keys (eraseKey m k) := by
    intro hmem
    rcases List.mem_map.mp hmem with ⟨p, hp, hfst⟩
    have := List.of_mem_filter hp
    rw [hfst] at this
    simp at this
  show (keys (eraseKey m k ++ [(k, v)])).Nodup
  have : keys (eraseKey m k ++ [(k, v)]) = keys (eraseKey m k) ++ [k] := by
    simp [keys]
  rw [this, List.nodup_append]
  refine ⟨h1, List.nodup_singleton k, ?_⟩
  intro a ha hb
  have hak : a = k := by simpa using hb
  exact h2 (hak ▸ ha)

theorem WFMap_loadEnvFileAux : ∀ (oracle : Oracle) (useEnc : Bool)
    (l : List (String × String)) (acc d : FieldMap), WFMap acc →
    loadEnvFileAux oracle useEnc l acc = .ok d → WFMap d
  | _, _, [], acc, d, hacc, h => by
    unfold loadEnvFileAux at h
    cases h
    exact hacc
  | oracle, useEnc, (key, value) :: rest, acc, d, hacc, h => by
    unfold loadEnvFileAux at h
    cases henc : useEnc with
    | false =>
      rw [henc] at h
      simp only [Bool.false_eq_true, if_false] at h
      exact WFMap_loadEnvFileAux oracle false rest _ d (WFMap_setKey _ _ _ hacc) h
    | true =>
      rw [henc] at h
      simp only [if_true] at h
      cases ho : oracle value with
      | none =>
        rw [ho] at h
        exact Res.noConfusion h
      | some c =>
        rw [ho] at h
        exact WFMap_loadEnvFileAux oracle true rest _ d (WFMap_setKey _ _ _ hacc) h

theorem ne_empty_length_bne {V : String} (h : V ≠ "") : (V.length == 0) = false := by
  rw [beq_eq_false_iff_ne]
  intro hl
  apply h
  apply String.ext
  cases V with
  | mk l => simpa using hl

theorem ne_empty_bne {K : String} (h : K ≠ "") : (K != "") = true := by
  simpa using h

/-! ### Claim theorems -/

/-- C8: for every field map `M`, classification is a pure total
function: it always yields a result (the empty map falls into the
`otherwise` class), it assigns `M` exactly one of the four shapes
(characterized below by the three classifier predicates in their
priority order), and applying it twice to the same `M` yields the same
shape. -/
theorem classify_total_characterization (M : FieldMap) :
    classify M = classify M ∧
    (M = [] → classify M = Shape.otherwise) ∧
    (classify M = Shape.singleEncrypted ↔ IsEncryptedSingleValue M = true) ∧
    (classify M = Shape.singlePlaintext ↔
      (IsEncryptedSingleValue M = false ∧ IsPlaintextSingleValue M = true)) ∧
    (classify M = Shape.multiEncrypted ↔
      (IsEncryptedSingleValue M = false ∧ IsPlaintextSingleValue M = false ∧
        IsEncryptedMultiValue M = true)) ∧
    (classify M = Shape.otherwise ↔
      (IsEncryptedSingleValue M = false ∧ IsPlaintextSingleValue M = false ∧
        IsEncryptedMultiValue M = false)) := by
  constructor
  · rfl
  constructor
  · intro hM
    subst hM
    decide
  cases h1 : IsEncryptedSingleValue M <;> cases h2 : IsPlaintextSingleValue M <;>
    cases h3 : IsEncryptedMultiValue M <;> simp [classify, h1, h2, h3]

/-- C8 witness: the empty map classifies as `otherwise`. -/
theorem classify_total_characterization_witness :
    classify [] = Shape.otherwise :=
  (classify_total_characterization []).2.1 rfl

/-- C9: the classifier predicates are not mutually exclusive: every
field map satisfying `IsEncryptedSingleValue` (one field, keyed
`"ciphertext"`, value `vault:v`-prefixed) also satisfies
`IsEncryptedMultiValue` (some value `vault:v`-prefixed); the
single-encrypted shape is distinguished only by test order. -/
theorem encrypted_single_implies_encrypted_multi (M : FieldMap)
    (h : IsEncryptedSingleValue M = true) : IsEncryptedMultiValue M = true := by
  match M with
  | [] => simp [IsEncryptedSingleValue] at h
  | [(k, v)] =>
    simp only [IsEncryptedSingleValue, List.length_singleton, bne_self_eq_false,
      Bool.false_eq_true, if_false] at h
    by_cases hk : k = "ciphertext"
    · subst hk
      cases v with
      | str s =>
        simp [getVal, asString] at h
        simp [IsEncryptedMultiValue, List.any_cons, h]
      | other n => simp [getVal, asString] at h
    · simp [getVal, hk, asString] at h
  | p :: q :: rest =>
    simp only [IsEncryptedSingleValue, List.length_cons] at h
    rw [if_pos (by simp [bne_iff_ne])] at h
    exact Bool.noConfusion h

/-- C9 witness: a concrete single-encrypted record also satisfies the
multi-encrypted predicate. -/
theorem encrypted_single_implies_encrypted_multi_witness :
    IsEncryptedSingleValue [("ciphertext", GoValue.str "vault:v1:abc")] = true ∧
    IsEncryptedMultiValue [("ciphertext", GoValue.str "vault:v1:abc")] = true :=
  ⟨by decide, encrypted_single_implies_encrypted_multi _ (by decide)⟩

/-- C10: `MergeData` is a pure right-biased map union: the result's
keys are exactly the union of the arguments' keys, each key is bound to
the second argument's value when present there and otherwise to the
first's, and the empty map is an identity on either side.  (The
modelled function allocates a fresh result, so neither argument is
mutated.) -/
theorem mergeData_right_biased_union (A B : FieldMap)
    (hA : WFMap A) (hB : WFMap B) :
    (∀ k, hasKey (mergeData A B) k = (hasKey A k || hasKey B k)) ∧
    (∀ k, getVal (mergeData A B) k =
      match getVal B k with
      | some v => some v
      | none => getVal A k) ∧
    mergeData [] A = A ∧ mergeData B [] = B := by
  refine ⟨?_, fun k => getVal_mergeData A B hA hB k,
    mergeData_empty_left A hA, mergeData_empty_right B hB⟩
  intro k
  rw [hasKey, hasKey, hasKey, getVal_mergeData A B hA hB k]
  cases getVal B k <;> cases getVal A k <;> simp

/-- C10 witness: merging two concrete one-field maps keeps the
non-overlapping key of the first. -/
theorem mergeData_right_biased_union_witness :
    getVal (mergeData [("a", GoValue.str "1")] [("b", GoValue.str "2")]) "a" =
      some (GoValue.str "1") := by
  have h := (mergeData_right_biased_union [("a", GoValue.str "1")]
    [("b", GoValue.str "2")] (by decide) (by decide)).2.1 "a"
  rw [h]
  rfl

/-- C1: a `Put` targeting an explicit field `K` with value `V` and no
encryption context, on an existing single-shaped record (one field
keyed `"value"`, or one field keyed `"ciphertext"` with the `vault:v`
prefix), writes exactly `{K: V}`: the previous singleton's sentinel key
and value are dropped. -/
theorem put_named_field_drops_singleton (oracle : Oracle)
    (existing : FieldMap) (K V : String)
    (hshape : IsEncryptedSingleValue existing = true ∨
      IsPlaintextSingleValue existing = true)
    (hK : K ≠ "") (hV : V ≠ "") :
    put oracle false K (.single V) existing = .ok [(K, GoValue.str V)] := by
  have hcond : (IsEncryptedSingleValue existing ||
      IsPlaintextSingleValue existing) = true := by
    rcases hshape with h | h <;> simp [h]
  unfold put
  simp only [hcond, if_true, ne_empty_length_bne hV, Bool.false_eq_true, if_false,
    ne_empty_bne hK]
  rfl

/-- C1 witness: the concrete scenario of the specification, existing
`{"value": "old"}` updated with `setField("NEW_KEY", "x")`. -/
theorem put_named_field_drops_singleton_witness :
    put (fun _ => none) false "NEW_KEY" (.single "x")
      [("value", GoValue.str "old")] = .ok [("NEW_KEY", GoValue.str "x")] :=
  put_named_field_drops_singleton (fun _ => none) [("value", GoValue.str "old")]
    "NEW_KEY" "x" (Or.inr (by decide)) (by decide) (by decide)

/-- C4: a `Put` of a single full value with no target field name resets
the record, whatever the existing record was: the written record is
exactly `{"value": V}` without encryption, and exactly
`{"ciphertext": c}` when the encrypt oracle returns `c`. -/
theorem put_full_value_resets (oracle : Oracle) (existing : FieldMap)
    (V : String) (hV : V ≠ "") :
    put oracle false "" (.single V) existing = .ok [("value", GoValue.str V)] ∧
    (∀ c, oracle V = some c →
      put oracle true "" (.single V) existing =
        .ok [("ciphertext", GoValue.str c)]) := by
  constructor
  · unfold put
    simp [ne_empty_length_bne hV]
  · intro c hc
    unfold put
    simp [ne_empty_length_bne hV, hc]

/-- C4 witness: the specification's scenario, existing multi-valued
record reset to `{"value": "supersecret"}`. -/
theorem put_full_value_resets_witness :
    put (fun _ => none) false "" (.single "supersecret")
      [("A", GoValue.str "1"), ("B", GoValue.str "2")] =
      .ok [("value", GoValue.str "supersecret")] :=
  (put_full_value_resets (fun _ => none)
    [("A", GoValue.str "1"), ("B", GoValue.str "2")] "supersecret" (by decide)).1

/-- C5: a `Put` targeting an explicit field `K` on an existing
multi-valued record (neither single-shape predicate holds) preserves
every other field unchanged (same key, same value; carried-over fields
are not re-encrypted) and binds `K` to the new value (the plaintext
`V`, or the oracle's ciphertext `c` under encryption). -/
theorem put_named_field_preserves_multi (oracle : Oracle) (useEnc : Bool)
    (existing : FieldMap) (K V c : String)
    (hwf : WFMap existing)
    (h1 : IsEncryptedSingleValue existing = false)
    (h2 : IsPlaintextSingleValue existing = false)
    (hK : K ≠ "") (hV : V ≠ "")
    (hc : useEnc = true → oracle V = some c) :
    ∃ r, put oracle useEnc K (.single V) existing = .ok r ∧
      getVal r K = some (GoValue.str (if useEnc then c else V)) ∧
      (∀ k, k ≠ K → getVal r k = getVal existing k) := by
  have hmerge : mergeData [] existing = existing := mergeData_empty_left existing hwf
  cases useEnc with
  | false =>
    refine ⟨setKey existing K (GoValue.str V), ?_, ?_, ?_⟩
    · unfold put
      simp [h1, h2, ne_empty_length_bne hV, ne_empty_bne hK, hmerge]
    · rw [getVal_setKey, if_pos rfl]
      rfl
    · intro k hk
      rw [getVal_setKey, if_neg hk]
  | true =>
    have hor : oracle V = some c := hc rfl
    refine ⟨setKey existing K (GoValue.str c), ?_, ?_, ?_⟩
    · unfold put
      simp [h1, h2, ne_empty_length_bne hV, ne_empty_bne hK, hor, hmerge]
    · rw [getVal_setKey, if_pos rfl]
      rfl
    · intro k hk
      rw [getVal_setKey, if_neg hk]

/-- C5 witness: the specification's scenario, `put --key API_KEY` onto
`{"DB_HOST": "h", "DB_PORT": "5432"}`. -/
theorem put_named_field_preserves_multi_witness :
    ∃ r, put (fun _ => none) false "API_KEY" (.single "new-key")
        [("DB_HOST", GoValue.str "h"), ("DB_PORT", GoValue.str "5432")] = .ok r ∧
      getVal r "API_KEY" = some (GoValue.str (if false then "zz" else "new-key")) ∧
      (∀ k, k ≠ "API_KEY" → getVal r k =
        getVal [("DB_HOST", GoValue.str "h"), ("DB_PORT", GoValue.str "5432")] k) :=
  put_named_field_preserves_multi (fun _ => none) false
    [("DB_HOST", GoValue.str "h"), ("DB_PORT", GoValue.str "5432")]
    "API_KEY" "new-key" "zz" (by decide) (by decide) (by decide)
    (by decide) (by decide) (fun h => Bool.noConfusion h)

/-- C2 counterexample: an env-file bulk load onto the existing
multi-valued record `{"A": "1"}` producing the loaded map `{"C": "3"}`
writes `{"A": "1", "C": "3"}`: the existing field `"A"` survives even
though it is not in the loaded map (which has no `"A"` binding). -/
theorem fromEnv_load_preserves_existing_field :
    put (fun _ => none) false "" (.fromEnv [("C", "3")]) [("A", GoValue.str "1")] =
      .ok [("A", GoValue.str "1"), ("C", GoValue.str "3")] ∧
    getVal [("A", GoValue.str "1"), ("C", GoValue.str "3")] "A" =
      some (GoValue.str "1") ∧
    getVal [("C", GoValue.str "3")] "A" = none := by
  refine ⟨rfl, rfl, rfl⟩

theorem put_fromEnv_eq (oracle : Oracle) (useEnc : Bool) (key : String)
    (envMap : List (String × String)) (existing nd : FieldMap)
    (hnd : loadEnvFile oracle useEnc envMap = .ok nd) :
    put oracle useEnc key (.fromEnv envMap) existing =
      .ok (mergeData
        (if IsEncryptedSingleValue existing || IsPlaintextSingleValue existing
          then ([] : FieldMap) else mergeData [] existing) nd) := by
  simp only [put]
  rw [hnd]

theorem put_fromFile_eq (oracle : Oracle) (useEnc : Bool) (key : String)
    (bytes : List Nat) (existing nd : FieldMap)
    (hnd : loadFileAsBase64 oracle useEnc bytes = .ok nd) :
    put oracle useEnc key (.fromFile bytes) existing = .ok nd := by
  simp only [put]
  rw [hnd]

/-- C2 amended: only the raw-file bulk load replaces the record
entirely (the written record is exactly the loader's singleton,
independent of the existing record); the env-file bulk load instead
merges the loaded map over the existing record after collapsing a
single-shaped record to empty, so a loaded field wins but an existing
multi-value field absent from the loaded map survives. -/
theorem put_bulk_load_semantics (oracle : Oracle) (useEnc : Bool)
    (key : String) (bytes : List Nat) (envMap : List (String × String))
    (existing : FieldMap) (hwf : WFMap existing) :
    (∀ nd, loadFileAsBase64 oracle useEnc bytes = .ok nd →
      put oracle useEnc key (.fromFile bytes) existing = .ok nd) ∧
    (∀ nd, loadEnvFile oracle useEnc envMap = .ok nd →
      ∃ r, put oracle useEnc key (.fromEnv envMap) existing = .ok r ∧
        ∀ k, getVal r k =
          match getVal nd k with
          | some v => some v
          | none =>
            if IsEncryptedSingleValue existing || IsPlaintextSingleValue existing
            then none else getVal existing k) := by
  constructor
  · intro nd hnd
    exact put_fromFile_eq oracle useEnc key bytes existing nd hnd
  · intro nd hnd
    have hndwf : WFMap nd :=
      WFMap_loadEnvFileAux oracle useEnc envMap [] nd (by simp [WFMap, keys]) hnd
    refine ⟨_, put_fromEnv_eq oracle useEnc key envMap existing nd hnd, ?_⟩
    intro k
    cases hcond : (IsEncryptedSingleValue existing || IsPlaintextSingleValue existing) with
    | true =>
      have hif : (if (true : Bool) = true then ([] : FieldMap)
          else mergeData [] existing) = [] := rfl
      have hif2 : (if (true : Bool) = true then (none : Option GoValue)
          else getVal existing k) = none := rfl
      rw [hif, hif2, getVal_mergeData [] nd (by simp [WFMap, keys]) hndwf k]
      cases getVal nd k <;> simp [getVal]
    | false =>
      have hif : (if (false : Bool) = true then ([] : FieldMap)
          else mergeData [] existing) = mergeData [] existing := rfl
      have hif2 : (if (false : Bool) = true then (none : Option GoValue)
          else getVal existing k) = getVal existing k := rfl
      rw [hif, hif2, mergeData_empty_left existing hwf,
        getVal_mergeData existing nd hwf hndwf k]

/-- C2 amended witness: a raw-file load of the two bytes `hi` onto an
existing record writes exactly the base64 singleton. -/
theorem put_bulk_load_semantics_witness :
    put (fun _ => none) false "" (.fromFile [104, 105]) [("A", GoValue.str "1")] =
      .ok [("value", GoValue.str "aGk=")] :=
  (put_bulk_load_semantics (fun _ => none) false "" [104, 105] []
    [("A", GoValue.str "1")] (by decide)).1 [("value", GoValue.str "aGk=")] (by rfl)

theorem loadEnvFileAux_err_of_fail : ∀ (oracle : Oracle)
    (envMap : List (String × String)) (acc : FieldMap),
    (∃ p ∈ envMap, oracle p.2 = none) →
    ∃ e, loadEnvFileAux oracle true envMap acc = .err e
  | _, [], _, h => by simp at h
  | oracle, (k0, v0) :: rest, acc, h => by
    cases ho : oracle v0 with
    | none =>
      refine ⟨"encrypt " ++ k0, ?_⟩
      unfold loadEnvFileAux
      simp [ho]
    | some c =>
      have hrest : ∃ p ∈ rest, oracle p.2 = none := by
        obtain ⟨p, hp, hpo⟩ := h
        rcases List.mem_cons.mp hp with hh | hh
        · exfalso
          rw [hh] at hpo
          simp only at hpo
          rw [ho] at hpo
          exact Option.noConfusion hpo
        · exact ⟨p, hh, hpo⟩
      obtain ⟨e, he⟩ :=
        loadEnvFileAux_err_of_fail oracle rest (setKey acc k0 (.str c)) hrest
      refine ⟨e, ?_⟩
      unfold loadEnvFileAux
      simp [ho, he]

/-- C6: a `Put` either commits exactly the one final record to the
backend or writes nothing; and whenever encryption is in use and any
encrypt-oracle call of the invocation fails — one bulk-loaded field's
value (even after earlier fields encrypted successfully), the raw-file
content, or the single value — the operation returns an error and no
backend write is attempted. -/
theorem put_encrypt_failure_atomic (oracle : Oracle) (useEnc : Bool)
    (key : String) (input : PutInput) (existing : FieldMap) :
    (∀ e, put oracle useEnc key input existing = .err e →
      putWrites oracle useEnc key input existing = []) ∧
    (∀ d, put oracle useEnc key input existing = .ok d →
      putWrites oracle useEnc key input existing = [d]) ∧
    (useEnc = true → encryptCallFails oracle input →
      ∃ e, put oracle useEnc key input existing = .err e ∧
        putWrites oracle useEnc key input existing = []) := by
  refine ⟨?_, ?_, ?_⟩
  · intro e he
    unfold putWrites
    rw [he]
  · intro d hd
    unfold putWrites
    rw [hd]
  · intro henc hfail
    subst henc
    cases input with
    | fromEnv envMap =>
      simp only [encryptCallFails] at hfail
      obtain ⟨e, he⟩ := loadEnvFileAux_err_of_fail oracle envMap [] hfail
      have hput : put oracle true key (.fromEnv envMap) existing =
          .err ("load env file: " ++ e) := by
        simp only [put, loadEnvFile]
        rw [he]
      exact ⟨_, hput, by unfold putWrites; rw [hput]⟩
    | fromFile bytes =>
      simp only [encryptCallFails] at hfail
      have hput : put oracle true key (.fromFile bytes) existing =
          .err ("load file: " ++ "encrypt file content") := by
        simp only [put, loadFileAsBase64]
        simp [hfail]
      exact ⟨_, hput, by unfold putWrites; rw [hput]⟩
    | single v =>
      simp only [encryptCallFails] at hfail
      by_cases hv : (v.length == 0) = true
      · have hput : put oracle true key (.single v) existing =
            .err "no secret value provided" := by
          simp only [put]
          simp [hv]
        exact ⟨_, hput, by unfold putWrites; rw [hput]⟩
      · have hv' : (v.length == 0) = false := by simpa using hv
        by_cases hkey : key = ""
        · have hput : put oracle true key (.single v) existing =
              .err "transit encrypt" := by
            simp only [put]
            simp [hv', hkey, hfail]
          exact ⟨_, hput, by unfold putWrites; rw [hput]⟩
        · have hput : put oracle true key (.single v) existing =
              .err "transit encrypt" := by
            simp only [put]
            simp [hv', ne_empty_bne hkey, hfail]
          exact ⟨_, hput, by unfold putWrites; rw [hput]⟩

/-- C6 witness: an env-file bulk load whose oracle encrypts the first
field successfully and fails on the second errors and writes nothing. -/
theorem put_encrypt_failure_atomic_witness :
    ∃ e, put (fun s => if s = "a" then some "vault:v1:ca" else none) true ""
        (.fromEnv [("K1", "a"), ("K2", "b")]) [] = Res.err e ∧
      putWrites (fun s => if s = "a" then some "vault:v1:ca" else none) true ""
        (.fromEnv [("K1", "a"), ("K2", "b")]) [] = [] :=
  (put_encrypt_failure_atomic (fun s => if s = "a" then some "vault:v1:ca" else none)
    true "" (.fromEnv [("K1", "a"), ("K2", "b")]) []).2.2 rfl
    ⟨("K2", "b"), by decide, by decide⟩

theorem genLines_fail_mid : ∀ (fetch : Fetch) (dec : Decryptor) (encKey : String)
    (L1 : List Secret) (e : Secret) (L2 : List Secret) (msg : String),
    resolveEntry fetch dec encKey e = .fail msg →
    ∃ m, genLines fetch dec encKey (L1 ++ e :: L2) = .err m
  | fetch, dec, encKey, [], e, L2, msg, h => ⟨msg, by simp [genLines, h]⟩
  | fetch, dec, encKey, s :: L1, e, L2, msg, h => by
    obtain ⟨m, hm⟩ := genLines_fail_mid fetch dec encKey L1 e L2 msg h
    cases hs : resolveEntry fetch dec encKey s with
    | fail m0 => exact ⟨m0, by simp [genLines, hs]⟩
    | skip => exact ⟨m, by simp [genLines, hs, hm]⟩
    | line l => exact ⟨m, by simp [genLines, hs, hm]⟩

theorem genLines_skip_mid : ∀ (fetch : Fetch) (dec : Decryptor) (encKey : String)
    (L1 : List Secret) (e : Secret) (L2 : List Secret),
    resolveEntry fetch dec encKey e = .skip →
    genLines fetch dec encKey (L1 ++ e :: L2) = genLines fetch dec encKey (L1 ++ L2)
  | fetch, dec, encKey, [], e, L2, h => by simp [genLines, h]
  | fetch, dec, encKey, s :: L1, e, L2, h => by
    have ih := genLines_skip_mid fetch dec encKey L1 e L2 h
    cases hs : resolveEntry fetch dec encKey s with
    | fail m0 => simp [genLines, hs]
    | skip => simp [genLines, hs, ih]
    | line l => simp [genLines, hs, ih]

/-- C7: in env-file generation, a required entry whose fetch fails
makes the whole aggregation fail with no output file; the same failure
on an optional entry only removes that entry: the run behaves exactly
as if the entry were absent, so remaining entries are still processed
in declaration order and the file is still written. -/
theorem genEnvFile_required_vs_optional_fetch_failure
    (fetch : Fetch) (dec : Decryptor) (encKey : String)
    (L1 L2 : List Secret) (e : Secret)
    (hvar : e.envVar ≠ "") (hpath : e.kvPath ≠ "")
    (hfetch : fetch e.kvPath = none) :
    (e.required = true →
      (∃ m, genLines fetch dec encKey (L1 ++ e :: L2) = .err m) ∧
      envFileContent fetch dec encKey (L1 ++ e :: L2) = none) ∧
    (e.required = false →
      genLines fetch dec encKey (L1 ++ e :: L2) =
        genLines fetch dec encKey (L1 ++ L2) ∧
      envFileContent fetch dec encKey (L1 ++ e :: L2) =
        envFileContent fetch dec encKey (L1 ++ L2)) := by
  have h1 : (e.envVar == "") = false := beq_eq_false_iff_ne.mpr hvar
  have h2 : (e.kvPath == "") = false := beq_eq_false_iff_ne.mpr hpath
  constructor
  · intro hreq
    have hres : resolveEntry fetch dec encKey e =
        .fail ("failed to get required secret " ++ e.name) := by
      unfold resolveEntry
      simp [h1, h2, hfetch, hreq]
    obtain ⟨m, hm⟩ := genLines_fail_mid fetch dec encKey L1 e L2 _ hres
    refine ⟨⟨m, hm⟩, ?_⟩
    unfold envFileContent
    rw [hm]
  · intro hreq
    have hres : resolveEntry fetch dec encKey e = .skip := by
      unfold resolveEntry
      simp [h1, h2, hfetch, hreq]
    have hg := genLines_skip_mid fetch dec encKey L1 e L2 hres
    refine ⟨hg, ?_⟩
    unfold envFileContent
    rw [hg]

/-- C7 witness: a single required entry with a failing fetch yields an
error and no output file. -/
theorem genEnvFile_required_vs_optional_fetch_failure_witness :
    (∃ m, genLines (fun _ => none) (fun _ => none) ""
      [⟨"s1", "p", "VAR", true⟩] = .err m) ∧
    envFileContent (fun _ => none) (fun _ => none) ""
      [⟨"s1", "p", "VAR", true⟩] = none :=
  (genEnvFile_required_vs_optional_fetch_failure (fun _ => none) (fun _ => none)
    "" [] [] ⟨"s1", "p", "VAR", true⟩ (by decide) (by decide) rfl).1 rfl

/-- C3 counterexample: a two-field record containing a `"value"` string
field is resolved by the aggregator (the entry binds its env var to
that field's value), even though the record has more than one field and
the entry is required — contradicting that every multi-field record is
unresolvable regardless of field names. -/
theorem multi_field_with_value_sentinel_resolves :
    genLines (fun _ => some [("value", GoValue.str "v"), ("other", GoValue.str "x")])
      (fun _ => none) "" [⟨"s1", "p", "DB", true⟩] = .ok ["DB=v"] ∧
    ([("value", GoValue.str "v"), ("other", GoValue.str "x")] : FieldMap).length > 1 := by
  exact ⟨rfl, by decide⟩

/-- C3 amended: a config-declared aggregation entry whose fetched
record has more than one field and contains neither a `vault:v`-prefixed
string `"ciphertext"` field nor a string `"value"` field is not
resolvable: fatal for the whole aggregation when the entry is required,
and skipped (the run behaves as if the entry were absent) when
optional. -/
theorem multi_field_without_sentinels_unresolvable
    (fetch : Fetch) (dec : Decryptor) (encKey : String)
    (L1 L2 : List Secret) (e : Secret) (data : FieldMap)
    (hvar : e.envVar ≠ "") (hpath : e.kvPath ≠ "")
    (hfetch : fetch e.kvPath = some data)
    (hlen : data.length > 1)
    (hcipher : ∀ c, asString (getVal data "ciphertext") = some c →
      strHasPfx c vaultPfx = false)
    (hvalue : asString (getVal data "value") = none) :
    (e.required = true →
      (∃ m, genLines fetch dec encKey (L1 ++ e :: L2) = .err m) ∧
      envFileContent fetch dec encKey (L1 ++ e :: L2) = none) ∧
    (e.required = false →
      genLines fetch dec encKey (L1 ++ e :: L2) =
        genLines fetch dec encKey (L1 ++ L2)) := by
  have h1 : (e.envVar == "") = false := beq_eq_false_iff_ne.mpr hvar
  have h2 : (e.kvPath == "") = false := beq_eq_false_iff_ne.mpr hpath
  have hplain : resolveEntryPlain data e =
      (if e.required
        then .fail ("secret " ++ e.name ++ " contains multiple values")
        else .skip) := by
    unfold resolveEntryPlain
    rw [hvalue]
    simp [hlen]
  have hres : resolveEntry fetch dec encKey e =
      (if e.required
        then .fail ("secret " ++ e.name ++ " contains multiple values")
        else .skip) := by
    unfold resolveEntry
    rw [hfetch]
    simp only [h1, h2, Bool.or_self, Bool.false_eq_true, if_false]
    cases hci : asString (getVal data "ciphertext") with
    | none => simp [hplain]
    | some c => simp [hcipher c hci, hplain]
  constructor
  · intro hreq
    rw [hreq, if_pos rfl] at hres
    obtain ⟨m, hm⟩ := genLines_fail_mid fetch dec encKey L1 e L2 _ hres
    refine ⟨⟨m, hm⟩, ?_⟩
    unfold envFileContent
    rw [hm]
  · intro hreq
    rw [hreq] at hres
    simp only [Bool.false_eq_true, if_false] at hres
    exact genLines_skip_mid fetch dec encKey L1 e L2 hres

/-- C3 amended witness: a required entry with a two-field record and no
sentinel field aborts generation. -/
theorem multi_field_without_sentinels_unresolvable_witness :
    ∃ m, genLines (fun _ => some [("A", GoValue.str "1"), ("B", GoValue.str "2")])
      (fun _ => none) "" [⟨"s1", "p", "VAR", true⟩] = .err m :=
  ((multi_field_without_sentinels_unresolvable
    (fun _ => some [("A", GoValue.str "1"), ("B", GoValue.str "2")])
    (fun _ => none) "" [] [] ⟨"s1", "p", "VAR", true⟩
    [("A", GoValue.str "1"), ("B", GoValue.str "2")]
    (by decide) (by decide) rfl (by decide)
    (fun c hc => nomatch hc) rfl).1 rfl).1

end VaultEnv
